import Mathlib

/-!
Verification development for the adaptive Kalman filter of
`trackers/strong_sort/sort/adaptive_kalman_filter.py`.

The Python class `AdaptiveKalmanFilter` is embedded shallowly:

* the 8-dimensional state vectors and 8×8 covariance matrices become
  `Fin 8 → ℝ` and `Matrix (Fin 8) (Fin 8) ℝ`;
* the mutable instance attributes (`_process_noise`, `_measurement_noise`,
  `_residual`, `image_width`, `image_height`) become the fields of a
  `KFState` record, and each mutating method is translated in
  state-passing style, returning its results together with the new
  `KFState`;
* `scipy.linalg.cho_factor`/`cho_solve` and
  `np.linalg.cholesky`/`scipy.linalg.solve_triangular` are modelled by
  their exact-arithmetic semantics on positive-definite input
  (multiplication by the inverse matrix); the possibility of the
  factorization raising `LinAlgError` on non-positive-definite input is
  modelled separately by the outcome relations `UpdateRun` and
  `GatingRun`.
-/

namespace AdaptiveKF

open Matrix

noncomputable section

abbrev Vec4 := Fin 4 → ℝ
abbrev Vec8 := Fin 8 → ℝ
abbrev Mat4 := Matrix (Fin 4) (Fin 4) ℝ
abbrev Mat8 := Matrix (Fin 8) (Fin 8) ℝ
abbrev Mat48 := Matrix (Fin 4) (Fin 8) ℝ
abbrev Mat84 := Matrix (Fin 8) (Fin 4) ℝ

/-- Source: `self._std_weight_position = 1. / 20`. -/
def std_weight_position : ℝ := 1 / 20

/-- Source: `self._std_weight_velocity = 1. / 160`. -/
def std_weight_velocity : ℝ := 1 / 160

/-- Source: `self._forgetting_factor = 0.9`. -/
def forgetting_factor : ℝ := 0.9

/-- Source: `self._motion_mat = np.eye(8, 8)` followed by
`self._motion_mat[i, 4 + i] = dt` for `i < 4`, with `dt = 1`. -/
def motion_mat : Mat8 :=
  Matrix.of fun i j => if j = i then 1 else if (j : ℕ) = (i : ℕ) + 4 then 1 else 0

/-- Source: `self._update_mat = np.eye(4, 8)`. -/
def update_mat : Mat48 :=
  Matrix.of fun i j => if (j : ℕ) = (i : ℕ) then 1 else 0

/-- The mutable instance state of one `AdaptiveKalmanFilter` object:
`self._process_noise`, `self._measurement_noise`, `self._residual`,
`self.image_width`, `self.image_height`. -/
structure KFState where
  process_noise : Mat8
  measurement_noise : Mat4
  residual : Vec4
  image_width : ℝ
  image_height : ℝ

/-- The state produced by `AdaptiveKalmanFilter.__init__`: zero process
noise, zero measurement noise, zero residual, image extent 0 × 0. -/
def initFilter : KFState :=
  { process_noise := 0
    measurement_noise := 0
    residual := 0
    image_width := 0
    image_height := 0 }

/-- Source: `distance_to_image_center`, which reads `bbox[0]` and `bbox[1]`;
it is applied both to 4-vectors (in `initiate`) and to 8-vectors (in
`update`), so the embedding is generic in the vector length. -/
def distance_to_image_center (s : KFState) {n : ℕ} (bbox : Fin (n + 2) → ℝ) : ℝ :=
  Real.sqrt ((s.image_width / 2 - bbox 0) ^ 2 + (s.image_height / 2 - bbox 1) ^ 2)

/-- `np.r_[a, b]` for two 4-vectors: concatenation into an 8-vector. -/
def appendVec (a b : Vec4) : Vec8 :=
  fun i =>
    if h : (i : ℕ) < 4 then a ⟨i, h⟩
    else b ⟨(i : ℕ) - 4, by have := i.isLt; omega⟩

/-- Source: `AdaptiveKalmanFilter.initiate`.  Pure: the only mutating code
in its body is commented out in the source. -/
def initiate (s : KFState) (measurement : Vec4) : Vec8 × Mat8 :=
  let mean : Vec8 := appendVec measurement 0
  let dist := distance_to_image_center s measurement
  let std : Vec8 := ![
    2 * std_weight_position * dist,
    2 * std_weight_position * dist,
    1 * measurement 2,
    2 * std_weight_position * measurement 3,
    10 * std_weight_velocity * dist,
    10 * std_weight_velocity * dist,
    0.1 * measurement 2,
    10 * std_weight_velocity * measurement 3]
  (mean, Matrix.diagonal fun i => std i ^ 2)

/-- Source: `AdaptiveKalmanFilter.predict`.  The method assigns no
instance attribute, so the state-passing translation returns `s`
unchanged. -/
def predict (s : KFState) (mean : Vec8) (covariance : Mat8) : Vec8 × Mat8 × KFState :=
  (motion_mat *ᵥ mean, motion_mat * covariance * motion_matᵀ + s.process_noise, s)

/-- Source: `AdaptiveKalmanFilter.project`.  Returns the projected mean,
the projected covariance (with the freshly adapted measurement noise
folded in), and the new instance state whose `measurement_noise` has been
advanced by the forgetting-factor recursion. -/
def project (s : KFState) (mean : Vec8) (covariance : Mat8) (confidence : ℝ) :
    Vec4 × Mat4 × KFState :=
  let projected_mean := update_mat *ᵥ mean
  let projected_cov := update_mat * covariance * update_matᵀ
  let std : Vec4 := ![
    std_weight_position * mean 3,
    std_weight_position * mean 3,
    0.1,
    std_weight_position * mean 3]
  let scaled_std : Vec4 := fun i => (1 - confidence) * std i
  let additive_measurement_noise : Mat4 := Matrix.diagonal fun i => scaled_std i ^ 2
  let est_measurement_noise : Mat4 :=
    Matrix.vecMulVec s.residual s.residual + projected_cov
  let new_measurement_noise : Mat4 :=
    forgetting_factor • (s.measurement_noise + additive_measurement_noise)
      + (1 - forgetting_factor) • est_measurement_noise
  (projected_mean, projected_cov + new_measurement_noise,
    { s with measurement_noise := new_measurement_noise })

/-- Exact-arithmetic semantics of `scipy.linalg.cho_factor` followed by
`scipy.linalg.cho_solve` on the same factor: for positive-definite `A`
the Cholesky-based solve of `A X = B` returns `A⁻¹ * B`.  (The
factorization's failure on non-positive-definite input is modelled by
`UpdateRun`.) -/
def choSolve {n m : ℕ} (A : Matrix (Fin n) (Fin n) ℝ) (B : Matrix (Fin n) (Fin m) ℝ) :
    Matrix (Fin n) (Fin m) ℝ := A⁻¹ * B

/-- Source: `AdaptiveKalmanFilter.update`, translated in state-passing
style;  the Kalman gain `scipy.linalg.cho_solve((chol_factor, lower),
np.dot(covariance, self._update_mat.T).T).T` is embedded through
`choSolve`. -/
def update (s : KFState) (mean : Vec8) (covariance : Mat8) (measurement : Vec4)
    (confidence : ℝ) : Vec8 × Mat8 × KFState :=
  let pr := project s mean covariance confidence
  let projected_mean := pr.1
  let projected_cov := pr.2.1
  let s1 := pr.2.2
  let innovation := measurement - projected_mean
  let kalman_gain : Mat84 := (choSolve projected_cov (covariance * update_matᵀ)ᵀ)ᵀ
  let dist := distance_to_image_center s1 mean
  let std_pos : Vec4 := ![
    std_weight_position * dist,
    std_weight_position * dist,
    1 * mean 2,
    std_weight_position * mean 3]
  let std_vel : Vec4 := ![
    std_weight_velocity * dist,
    std_weight_velocity * dist,
    0.1 * mean 2,
    std_weight_velocity * mean 3]
  let additive_process_noise : Mat8 :=
    Matrix.diagonal fun i => appendVec std_pos std_vel i ^ 2
  let est_process_noise : Mat8 :=
    kalman_gain * Matrix.vecMulVec innovation innovation * kalman_gainᵀ
  let new_process_noise : Mat8 :=
    forgetting_factor • (s1.process_noise + additive_process_noise)
      + (1 - forgetting_factor) • est_process_noise
  let new_mean : Vec8 := mean + innovation ᵥ* kalman_gainᵀ
  let I_KH : Mat8 := 1 - kalman_gain * update_mat
  let new_covariance : Mat8 :=
    I_KH * covariance * I_KHᵀ + kalman_gain * s1.measurement_noise * kalman_gainᵀ
  let upd_projected_mean := update_mat *ᵥ new_mean
  let new_residual := measurement - upd_projected_mean
  (new_mean, new_covariance,
    { s1 with process_noise := new_process_noise, residual := new_residual })

/-- Exact-arithmetic semantics of the gating pipeline
`np.linalg.cholesky(sigma)`, `scipy.linalg.solve_triangular(L, d)`,
`np.sum(z * z)`: for positive-definite `sigma = L * Lᵀ` the sum of
squares of `L⁻¹ d` equals `d ⬝ᵥ sigma⁻¹ *ᵥ d`. -/
def mahalanobisSq {k : ℕ} (sigma : Matrix (Fin k) (Fin k) ℝ) (d : Fin k → ℝ) : ℝ :=
  d ⬝ᵥ sigma⁻¹ *ᵥ d

/-- The inclusion `Fin 2 → Fin 4` realizing the `[:2]` slicing in
`gating_distance`. -/
def firstTwo : Fin 2 → Fin 4 := fun i => Fin.castLE (by omega) i

/-- Source: `AdaptiveKalmanFilter.gating_distance`, translated in
state-passing style.  `project` is invoked with the default confidence
`0.0`; its state effect is returned alongside the distance vector. -/
def gating_distance (s : KFState) (mean : Vec8) (covariance : Mat8) {N : ℕ}
    (measurements : Fin N → Vec4) (only_position : Bool) :
    (Fin N → ℝ) × KFState :=
  let pr := project s mean covariance 0
  let projected_mean := pr.1
  let projected_cov := pr.2.1
  let s1 := pr.2.2
  if only_position then
    let pm2 : Fin 2 → ℝ := fun i => projected_mean (firstTwo i)
    let pc2 : Matrix (Fin 2) (Fin 2) ℝ := projected_cov.submatrix firstTwo firstTwo
    (fun k => mahalanobisSq pc2 (fun i => measurements k (firstTwo i) - pm2 i), s1)
  else
    (fun k => mahalanobisSq projected_cov (fun i => measurements k i - projected_mean i), s1)

/-- Outcome of one fallible method call: normal return (value plus the
instance state after the call), or a raised `LinAlgError` (paired with
the instance state at the moment of the raise). -/
inductive Outcome (α : Type) where
  | ok : α → KFState → Outcome α
  | err : KFState → Outcome α

/-- Execution relation for `AdaptiveKalmanFilter.update`: the call first
runs `project` (mutating `measurement_noise`), then hands the projected
covariance to `scipy.linalg.cho_factor`, which raises exactly when that
matrix is not positive definite; the remainder of the method (process
noise, new mean/covariance, residual) runs only on success. -/
inductive UpdateRun (s : KFState) (mean : Vec8) (covariance : Mat8) (measurement : Vec4)
    (confidence : ℝ) : Outcome (Vec8 × Mat8) → Prop where
  | ok : (project s mean covariance confidence).2.1.PosDef →
      UpdateRun s mean covariance measurement confidence
        (Outcome.ok ((update s mean covariance measurement confidence).1,
            (update s mean covariance measurement confidence).2.1)
          (update s mean covariance measurement confidence).2.2)
  | err : ¬ (project s mean covariance confidence).2.1.PosDef →
      UpdateRun s mean covariance measurement confidence
        (Outcome.err (project s mean covariance confidence).2.2)

/-- The matrix handed to `np.linalg.cholesky` inside `gating_distance` is
positive definite: the full 4×4 projected covariance, or its leading 2×2
block when `only_position` is set. -/
def gatingCholOk (s : KFState) (mean : Vec8) (covariance : Mat8) (only_position : Bool) :
    Prop :=
  if only_position then
    (((project s mean covariance 0).2.1).submatrix firstTwo firstTwo).PosDef
  else (project s mean covariance 0).2.1.PosDef

/-- Execution relation for `AdaptiveKalmanFilter.gating_distance`:
`project` runs first (mutating `measurement_noise`), then
`np.linalg.cholesky` raises exactly when its input matrix is not
positive definite. -/
inductive GatingRun (s : KFState) (mean : Vec8) (covariance : Mat8) {N : ℕ}
    (measurements : Fin N → Vec4) (only_position : Bool) : Outcome (Fin N → ℝ) → Prop where
  | ok : gatingCholOk s mean covariance only_position →
      GatingRun s mean covariance measurements only_position
        (Outcome.ok (gating_distance s mean covariance measurements only_position).1
          (gating_distance s mean covariance measurements only_position).2)
  | err : ¬ gatingCholOk s mean covariance only_position →
      GatingRun s mean covariance measurements only_position
        (Outcome.err (project s mean covariance 0).2.2)

/-- One step of the per-frame driver loop: a `predict` call or an
`update` call with a given measurement and confidence. -/
inductive Step where
  | pred : Step
  | upd : Vec4 → ℝ → Step

/-- Apply one `Step` to a (mean, covariance, instance-state) triple. -/
def runStep (x : Vec8 × Mat8 × KFState) : Step → Vec8 × Mat8 × KFState
  | Step.pred => predict x.2.2 x.1 x.2.1
  | Step.upd z c => update x.2.2 x.1 x.2.1 z c

/-- Run a sequence of `predict`/`update` steps. -/
def run (x : Vec8 × Mat8 × KFState) (steps : List Step) : Vec8 × Mat8 × KFState :=
  steps.foldl runStep x

/-- The Kalman gain as the specification writes it:
`K = covariance · Hᵀ · Σ⁻¹` with `Σ` the projected covariance. -/
def kalmanGainSpec (s : KFState) (mean : Vec8) (covariance : Mat8) (confidence : ℝ) :
    Mat84 :=
  covariance * update_matᵀ * ((project s mean covariance confidence).2.1)⁻¹

/-- Invariant carried along a run: the tracked covariance and both
adaptive noise matrices of the instance state are positive
semidefinite. -/
def GoodState (x : Vec8 × Mat8 × KFState) : Prop :=
  x.2.1.PosSemidef ∧ x.2.2.process_noise.PosSemidef ∧ x.2.2.measurement_noise.PosSemidef

end

/-! ### Helper lemmas on real positive (semi)definiteness -/

/-- Over ℝ the conjugate transpose is the transpose, so `IsHermitian`
coincides with symmetry. -/
theorem isHermitian_iff_transpose_eq {n : ℕ} (M : Matrix (Fin n) (Fin n) ℝ) :
    M.IsHermitian ↔ Mᵀ = M := by
  unfold Matrix.IsHermitian
  rw [Matrix.conjTranspose_eq_transpose_of_trivial]

/-- A nonnegative scalar multiple of a positive semidefinite real matrix
is positive semidefinite. -/
theorem posSemidef_smul {n : ℕ} {M : Matrix (Fin n) (Fin n) ℝ} (hM : M.PosSemidef)
    {c : ℝ} (hc : 0 ≤ c) : (c • M).PosSemidef := by
  refine ⟨?_, fun x => ?_⟩
  · rw [isHermitian_iff_transpose_eq, Matrix.transpose_smul,
      (isHermitian_iff_transpose_eq M).mp hM.1]
  · rw [Matrix.smul_mulVec_assoc, Matrix.dotProduct_smul, smul_eq_mul]
    exact mul_nonneg hc (hM.2 x)

/-- The outer product of a real vector with itself is positive
semidefinite. -/
theorem posSemidef_vecMulVec_self {n : ℕ} (r : Fin n → ℝ) :
    (Matrix.vecMulVec r r).PosSemidef := by
  refine ⟨(isHermitian_iff_transpose_eq _).mpr ?_, fun x => ?_⟩
  · exact Matrix.ext fun i j => by
      rw [Matrix.transpose_apply, Matrix.vecMulVec_apply, Matrix.vecMulVec_apply, mul_comm]
  · have key : star x ⬝ᵥ Matrix.vecMulVec r r *ᵥ x = (r ⬝ᵥ x) * (r ⬝ᵥ x) := by
      simp only [star_trivial, Matrix.dotProduct, Matrix.mulVec, Matrix.vecMulVec_apply]
      rw [Finset.sum_mul_sum]
      refine Finset.sum_congr rfl fun i _ => ?_
      rw [Finset.mul_sum]
      refine Finset.sum_congr rfl fun j _ => ?_
      ring
    rw [key]
    exact mul_self_nonneg _

/-- Conjugation `B * A * Bᵀ` of a positive semidefinite real matrix is
positive semidefinite. -/
theorem posSemidef_mul_mul_transpose {n m : ℕ} {A : Matrix (Fin n) (Fin n) ℝ}
    (hA : A.PosSemidef) (B : Matrix (Fin m) (Fin n) ℝ) : (B * A * Bᵀ).PosSemidef := by
  have h := hA.mul_mul_conjTranspose_same B
  rwa [Matrix.conjTranspose_eq_transpose_of_trivial] at h

/-- The measurement noise produced by `project` stays positive
semidefinite when the incoming noise and covariance are. -/
theorem project_measurement_noise_posSemidef (s : KFState) (mean : Vec8)
    (covariance : Mat8) (confidence : ℝ) (hR : s.measurement_noise.PosSemidef)
    (hP : covariance.PosSemidef) :
    (project s mean covariance confidence).2.2.measurement_noise.PosSemidef := by
  simp only [project]
  exact Matrix.PosSemidef.add
    (posSemidef_smul
      (hR.add (Matrix.posSemidef_diagonal_iff.mpr fun i => sq_nonneg _))
      (by norm_num [forgetting_factor]))
    (posSemidef_smul
      ((posSemidef_vecMulVec_self _).add (posSemidef_mul_mul_transpose hP _))
      (by norm_num [forgetting_factor]))

/-- Each driver step preserves the `GoodState` invariant. -/
theorem runStep_preserves {x : Vec8 × Mat8 × KFState} (hx : GoodState x) (a : Step) :
    GoodState (runStep x a) := by
  obtain ⟨hP, hQ, hR⟩ := hx
  cases a with
  | pred =>
      exact ⟨(posSemidef_mul_mul_transpose hP motion_mat).add hQ, hQ, hR⟩
  | upd z c =>
      have hR1 : (project x.2.2 x.1 x.2.1 c).2.2.measurement_noise.PosSemidef :=
        project_measurement_noise_posSemidef _ _ _ _ hR hP
      refine ⟨?_, ?_, hR1⟩
      · exact (posSemidef_mul_mul_transpose hP _).add
          (posSemidef_mul_mul_transpose hR1 _)
      · exact Matrix.PosSemidef.add
          (posSemidef_smul
            (hQ.add (Matrix.posSemidef_diagonal_iff.mpr fun i => sq_nonneg _))
            (by norm_num [forgetting_factor]))
          (posSemidef_smul
            (posSemidef_mul_mul_transpose (posSemidef_vecMulVec_self _) _)
            (by norm_num [forgetting_factor]))

/-- A whole run preserves the `GoodState` invariant. -/
theorem run_preserves (steps : List Step) :
    ∀ x : Vec8 × Mat8 × KFState, GoodState x → GoodState (run x steps) := by
  induction steps with
  | nil => exact fun x hx => hx
  | cons a l ih => exact fun x hx => ih (runStep x a) (runStep_preserves hx a)

/-! ### Claim C2 -/

/-- C2: for every sequence of `predict`/`update` steps starting from the
(mean, covariance) pair returned by `initiate` on a measurement with
positive aspect ratio and height (fresh filter instance, arbitrary image
extent), the covariance returned at every step is symmetric and positive
semidefinite, in exact arithmetic.  The run applies the update equations
unconditionally, so in particular every sequence of successful updates
is covered. -/
theorem run_covariance_symm_posSemidef (w h : ℝ) (z : Vec4)
    (ha : 0 < z 2) (hh : 0 < z 3) (s0 : KFState)
    (hs0 : s0 = { initFilter with image_width := w, image_height := h })
    (steps : List Step) :
    (run ((initiate s0 z).1, (initiate s0 z).2, s0) steps).2.1.PosSemidef ∧
    ((run ((initiate s0 z).1, (initiate s0 z).2, s0) steps).2.1)ᵀ =
      (run ((initiate s0 z).1, (initiate s0 z).2, s0) steps).2.1 := by
  have h0 : GoodState ((initiate s0 z).1, (initiate s0 z).2, s0) := by
    subst hs0
    exact ⟨Matrix.posSemidef_diagonal_iff.mpr fun i => sq_nonneg _,
      Matrix.PosSemidef.zero, Matrix.PosSemidef.zero⟩
  have hg := run_preserves steps _ h0
  exact ⟨hg.1, (isHermitian_iff_transpose_eq _).mp hg.1.1⟩

/-- Witness for C2 at a concrete measurement, image extent and step
sequence. -/
theorem run_covariance_symm_posSemidef_witness :
    (0 : ℝ) < (![100, 100, 1, 50] : Vec4) 2 ∧ (0 : ℝ) < (![100, 100, 1, 50] : Vec4) 3 ∧
    (run ((initiate { initFilter with image_width := 1920, image_height := 1080 }
            ![100, 100, 1, 50]).1,
          (initiate { initFilter with image_width := 1920, image_height := 1080 }
            ![100, 100, 1, 50]).2,
          { initFilter with image_width := 1920, image_height := 1080 })
        [Step.pred, Step.upd ![101, 101, 1, 50] 0.5, Step.pred]).2.1.PosSemidef :=
  ⟨by simp, by simp,
    (run_covariance_symm_posSemidef 1920 1080 ![100, 100, 1, 50] (by simp) (by simp) _ rfl
      [Step.pred, Step.upd ![101, 101, 1, 50] 0.5, Step.pred]).1⟩

/-! ### Claim C1 -/

/-- The Kalman gain computed by the code through the Cholesky solve —
`(choSolve Σ (P · Hᵀ)ᵀ)ᵀ` — equals the explicit-inverse form
`P · Hᵀ · Σ⁻¹` whenever the projected covariance `Σ` is positive
definite (hence symmetric). -/
theorem kalman_gain_eq (s : KFState) (m : Vec8) (P : Mat8) (c : ℝ)
    (hpd : (project s m P c).2.1.PosDef) :
    (choSolve (project s m P c).2.1 (P * update_matᵀ)ᵀ)ᵀ = kalmanGainSpec s m P c := by
  have hsymm : ((project s m P c).2.1)ᵀ = (project s m P c).2.1 :=
    (isHermitian_iff_transpose_eq _).mp hpd.1
  rw [choSolve, kalmanGainSpec, Matrix.transpose_mul, Matrix.transpose_transpose,
    Matrix.transpose_nonsing_inv, hsymm]

/-- C1: whenever the projected covariance `Σ` is positive definite,
`update` returns `new_mean = mean + innovation ᵥ* Kᵀ` and the
Joseph-form covariance
`(I − K·H) · P · (I − K·H)ᵀ + K · R · Kᵀ`, with `H` the observation
matrix, `R` the measurement noise as just updated by the projection, and
`K = P · Hᵀ · Σ⁻¹` (the Cholesky-based solve agreeing with the explicit
inverse); afterwards the stored residual is `z − H · new_mean`. -/
theorem update_returns_joseph_form (s : KFState) (m : Vec8) (P : Mat8) (z : Vec4) (c : ℝ)
    (hsym : Pᵀ = P) (hpd : (project s m P c).2.1.PosDef) :
    (update s m P z c).1 = m + (z - update_mat *ᵥ m) ᵥ* (kalmanGainSpec s m P c)ᵀ ∧
    (update s m P z c).2.1 =
      (1 - kalmanGainSpec s m P c * update_mat) * P *
          (1 - kalmanGainSpec s m P c * update_mat)ᵀ +
        kalmanGainSpec s m P c * (project s m P c).2.2.measurement_noise *
          (kalmanGainSpec s m P c)ᵀ ∧
    (update s m P z c).2.2.residual = z - update_mat *ᵥ (update s m P z c).1 := by
  have hK := kalman_gain_eq s m P c hpd
  have hpm : (project s m P c).1 = update_mat *ᵥ m := rfl
  refine ⟨?_, ?_, ?_⟩
  · simp only [update]
    rw [hK, hpm]
  · simp only [update]
    rw [hK]
  · simp only [update]

/-- Witness for C1 at concrete inputs whose projected covariance is
positive definite. -/
theorem update_returns_joseph_form_witness :
    ((0 : Mat8)ᵀ = 0) ∧
    ((project { initFilter with measurement_noise := 1 } 0 0 0).2.1).PosDef ∧
    (update { initFilter with measurement_noise := 1 } 0 0 0 0).2.2.residual =
      0 - update_mat *ᵥ (update { initFilter with measurement_noise := 1 } 0 0 0 0).1 := by
  have hpd : ((project { initFilter with measurement_noise := 1 } 0 0 0).2.1).PosDef := by
    have hS : (project { initFilter with measurement_noise := 1 } 0 0 0).2.1 =
        Matrix.diagonal ![9 / 10, 9 / 10, 909 / 1000, 9 / 10] := by
      simp only [project, initFilter]
      ext i j
      fin_cases i <;> fin_cases j <;>
        simp [update_mat, forgetting_factor, Matrix.vecMulVec_apply,
          Matrix.diagonal, Matrix.one_apply] <;>
        norm_num
    rw [hS, Matrix.posDef_diagonal_iff]
    intro i
    fin_cases i <;> norm_num
  exact ⟨Matrix.transpose_zero, hpd,
    (update_returns_joseph_form { initFilter with measurement_noise := 1 } 0 0 0 0
        Matrix.transpose_zero hpd).2.2⟩

/-! ### Claim C3 -/

/-- C3: for confidence `c ∈ [0, 1]`, `project` returns
`proj_mean = H · m` and `proj_cov = H · P · Hᵀ + R_new`, and its only
side effect replaces the measurement noise by
`R_new = 0.9 · (R_old + diag(s²)) + 0.1 · (r ⊗ r + H · P · Hᵀ)` with
`s = (1 − c) · [m₃/20, m₃/20, 0.1, m₃/20]` (every entry, the fixed `0.1`
included, scaled by `1 − c`) and `r` the stored residual; process noise,
residual and image extent are untouched. -/
theorem project_adaptive_measurement_noise (s : KFState) (m : Vec8) (P : Mat8) (c : ℝ)
    (hc0 : 0 ≤ c) (hc1 : c ≤ 1) :
    (project s m P c).1 = update_mat *ᵥ m ∧
    (project s m P c).2.1 =
      update_mat * P * update_matᵀ + (project s m P c).2.2.measurement_noise ∧
    (project s m P c).2.2.measurement_noise =
      (0.9 : ℝ) • (s.measurement_noise +
        Matrix.diagonal fun i =>
          ((1 - c) * (![(1 / 20) * m 3, (1 / 20) * m 3, 0.1, (1 / 20) * m 3] i)) ^ 2) +
      (0.1 : ℝ) • (Matrix.vecMulVec s.residual s.residual +
        update_mat * P * update_matᵀ) ∧
    (project s m P c).2.2.process_noise = s.process_noise ∧
    (project s m P c).2.2.residual = s.residual ∧
    (project s m P c).2.2.image_width = s.image_width ∧
    (project s m P c).2.2.image_height = s.image_height := by
  refine ⟨rfl, rfl, ?_, rfl, rfl, rfl, rfl⟩
  simp only [project]
  norm_num [forgetting_factor, std_weight_position]

/-- Witness for C3 at a concrete confidence value. -/
theorem project_adaptive_measurement_noise_witness :
    (0 : ℝ) ≤ 1 / 2 ∧ (1 : ℝ) / 2 ≤ 1 ∧
    (project initFilter 0 0 (1 / 2)).2.2.process_noise = initFilter.process_noise :=
  ⟨by norm_num, by norm_num,
    (project_adaptive_measurement_noise initFilter 0 0 (1 / 2) (by norm_num)
        (by norm_num)).2.2.2.1⟩

/-! ### Claim C4 -/

/-- Squaring a concatenated pair of 4-vectors entrywise gives the
explicit 8-entry diagonal. -/
theorem diagonal_sq_appendVec (a b : Vec4) :
    (Matrix.diagonal fun i => appendVec a b i ^ 2) =
      Matrix.diagonal fun i =>
        (![a 0, a 1, a 2, a 3, b 0, b 1, b 2, b 3] i) ^ 2 := by
  have hf : (fun i => appendVec a b i ^ 2) =
      fun i => (![a 0, a 1, a 2, a 3, b 0, b 1, b 2, b 3] i) ^ 2 := by
    funext i
    fin_cases i <;> simp [appendVec] <;> rfl
  rw [hf]

/-- C4: every successful `update` replaces the process noise by
`Q_new = 0.9 · (Q_old + A) + 0.1 · K · (ν ⊗ ν) · Kᵀ`, where `ν` is the
innovation, `K` the Kalman gain, and `A` the diagonal of squared
baseline standard deviations built from the predicted mean's distance to
the image center (position and position-velocity entries) and the
predicted mean's aspect ratio and height (aspect/height entries),
mirroring the Initiator's `1/20` and `1/160` scalings. -/
theorem update_adaptive_process_noise (s : KFState) (m : Vec8) (P : Mat8) (z : Vec4) (c : ℝ)
    (hpd : (project s m P c).2.1.PosDef) :
    (update s m P z c).2.2.process_noise =
      (0.9 : ℝ) • (s.process_noise +
        Matrix.diagonal fun i : Fin 8 =>
          (![(1 / 20) * distance_to_image_center s m,
             (1 / 20) * distance_to_image_center s m,
             1 * m 2,
             (1 / 20) * m 3,
             (1 / 160) * distance_to_image_center s m,
             (1 / 160) * distance_to_image_center s m,
             0.1 * m 2,
             (1 / 160) * m 3] i) ^ 2) +
      (0.1 : ℝ) • (kalmanGainSpec s m P c *
        Matrix.vecMulVec (z - update_mat *ᵥ m) (z - update_mat *ᵥ m) *
        (kalmanGainSpec s m P c)ᵀ) := by
  have hK := kalman_gain_eq s m P c hpd
  simp only [update]
  rw [hK, diagonal_sq_appendVec]
  norm_num [forgetting_factor, std_weight_position, std_weight_velocity,
    distance_to_image_center, project]

/-- Witness for C4 at concrete inputs whose projected covariance is
positive definite. -/
theorem update_adaptive_process_noise_witness :
    ((project { initFilter with measurement_noise := 1 } 0 0 0).2.1).PosDef ∧
    (update { initFilter with measurement_noise := 1 } 0 0 0 0).2.2.process_noise =
      (0.9 : ℝ) • ((0 : Mat8) +
        Matrix.diagonal fun i : Fin 8 =>
          (![(1 / 20) * distance_to_image_center { initFilter with measurement_noise := 1 } (0 : Vec8),
             (1 / 20) * distance_to_image_center { initFilter with measurement_noise := 1 } (0 : Vec8),
             1 * (0 : Vec8) 2,
             (1 / 20) * (0 : Vec8) 3,
             (1 / 160) * distance_to_image_center { initFilter with measurement_noise := 1 } (0 : Vec8),
             (1 / 160) * distance_to_image_center { initFilter with measurement_noise := 1 } (0 : Vec8),
             0.1 * (0 : Vec8) 2,
             (1 / 160) * (0 : Vec8) 3] i) ^ 2) +
      (0.1 : ℝ) • (kalmanGainSpec { initFilter with measurement_noise := 1 } 0 0 0 *
        Matrix.vecMulVec ((0 : Vec4) - update_mat *ᵥ (0 : Vec8))
          ((0 : Vec4) - update_mat *ᵥ (0 : Vec8)) *
        (kalmanGainSpec { initFilter with measurement_noise := 1 } 0 0 0)ᵀ) := by
  have hpd : ((project { initFilter with measurement_noise := 1 } 0 0 0).2.1).PosDef := by
    have hS : (project { initFilter with measurement_noise := 1 } 0 0 0).2.1 =
        Matrix.diagonal ![9 / 10, 9 / 10, 909 / 1000, 9 / 10] := by
      simp only [project, initFilter]
      ext i j
      fin_cases i <;> fin_cases j <;>
        simp [update_mat, forgetting_factor, Matrix.vecMulVec_apply,
          Matrix.diagonal, Matrix.one_apply] <;>
        norm_num
    rw [hS, Matrix.posDef_diagonal_iff]
    intro i
    fin_cases i <;> norm_num
  exact ⟨hpd,
    update_adaptive_process_noise { initFilter with measurement_noise := 1 } 0 0 0 0 hpd⟩

/-! ### Claim C5 -/

/-- C5: with `Σ` the projected covariance produced by the internal
`project` call (confidence 0) and `d_k = measurement_k − proj_mean`,
`gating_distance` returns the vector of quadratic forms
`d_kᵀ · Σ⁻¹ · d_k` (the Cholesky/triangular-solve pipeline in exact
arithmetic); every entry is nonnegative; a measurement equal to the
projected mean gets distance 0; along a position-only offset direction
(aspect and height components zero) the distance is monotone
nondecreasing in the offset scale; and with `only_position` set only the
first two components are used, so two measurements differing only in
aspect ratio and/or height receive equal distances. -/
theorem gating_distance_mahalanobis (s : KFState) (m : Vec8) (P : Mat8)
    {N : ℕ} (meas : Fin N → Vec4)
    (hpd : (project s m P 0).2.1.PosDef) :
    (∀ k, (gating_distance s m P meas false).1 k =
      (fun i => meas k i - (project s m P 0).1 i) ⬝ᵥ
        ((project s m P 0).2.1)⁻¹ *ᵥ fun i => meas k i - (project s m P 0).1 i) ∧
    (∀ k, 0 ≤ (gating_distance s m P meas false).1 k) ∧
    (∀ k, meas k = (project s m P 0).1 → (gating_distance s m P meas false).1 k = 0) ∧
    (∀ v : Vec4, v 2 = 0 → v 3 = 0 → ∀ t₁ t₂ : ℝ, 0 ≤ t₁ → t₁ ≤ t₂ →
      (gating_distance s m P
        (fun _ : Fin 1 => fun j => (project s m P 0).1 j + t₁ * v j) false).1 0 ≤
      (gating_distance s m P
        (fun _ : Fin 1 => fun j => (project s m P 0).1 j + t₂ * v j) false).1 0) ∧
    (∀ k₁ k₂, meas k₁ 0 = meas k₂ 0 → meas k₁ 1 = meas k₂ 1 →
      (gating_distance s m P meas true).1 k₁ = (gating_distance s m P meas true).1 k₂) := by
  have hinv : (((project s m P 0).2.1)⁻¹).PosSemidef := hpd.inv.posSemidef
  have hq0 : ∀ d : Vec4, 0 ≤ mahalanobisSq ((project s m P 0).2.1) d := by
    intro d
    have h := hinv.2 d
    rwa [star_trivial] at h
  refine ⟨fun k => rfl, ?_, ?_, ?_, ?_⟩
  · intro k
    show 0 ≤ mahalanobisSq ((project s m P 0).2.1)
      fun i => meas k i - (project s m P 0).1 i
    exact hq0 _
  · intro k hk
    show mahalanobisSq ((project s m P 0).2.1)
      (fun i => meas k i - (project s m P 0).1 i) = 0
    rw [hk]
    simp [mahalanobisSq, Matrix.dotProduct]
  · intro v hv2 hv3 t₁ t₂ ht0 ht12
    have hd : ∀ t : ℝ,
        (fun i => ((project s m P 0).1 i + t * v i) - (project s m P 0).1 i) = t • v := by
      intro t
      funext i
      simp [mul_comm]
    have hq : ∀ t : ℝ, mahalanobisSq ((project s m P 0).2.1) (t • v) =
        t ^ 2 * mahalanobisSq ((project s m P 0).2.1) v := by
      intro t
      simp only [mahalanobisSq, Matrix.mulVec_smul, Matrix.dotProduct_smul,
        Matrix.smul_dotProduct, smul_eq_mul]
      ring
    show mahalanobisSq ((project s m P 0).2.1)
        (fun i => ((project s m P 0).1 i + t₁ * v i) - (project s m P 0).1 i) ≤
      mahalanobisSq ((project s m P 0).2.1)
        (fun i => ((project s m P 0).1 i + t₂ * v i) - (project s m P 0).1 i)
    rw [hd t₁, hd t₂, hq t₁, hq t₂]
    exact mul_le_mul_of_nonneg_right (pow_le_pow_left ht0 ht12 2) (hq0 v)
  · intro k₁ k₂ h0 h1
    have he : (fun i : Fin 2 =>
          meas k₁ (firstTwo i) - (project s m P 0).1 (firstTwo i)) =
        fun i : Fin 2 => meas k₂ (firstTwo i) - (project s m P 0).1 (firstTwo i) := by
      funext i
      fin_cases i
      · rw [show firstTwo ⟨0, by omega⟩ = 0 from rfl, h0]
      · rw [show firstTwo ⟨1, by omega⟩ = 1 from rfl, h1]
    exact congrArg (mahalanobisSq _) he

/-- Witness for C5 at concrete inputs whose projected covariance is
positive definite. -/
theorem gating_distance_mahalanobis_witness :
    ((project { initFilter with measurement_noise := 1 } 0 0 0).2.1).PosDef ∧
    0 ≤ (gating_distance { initFilter with measurement_noise := 1 } 0 0
        (fun _ : Fin 1 => 0) false).1 0 := by
  have hpd : ((project { initFilter with measurement_noise := 1 } 0 0 0).2.1).PosDef := by
    have hS : (project { initFilter with measurement_noise := 1 } 0 0 0).2.1 =
        Matrix.diagonal ![9 / 10, 9 / 10, 909 / 1000, 9 / 10] := by
      simp only [project, initFilter]
      ext i j
      fin_cases i <;> fin_cases j <;>
        simp [update_mat, forgetting_factor, Matrix.vecMulVec_apply,
          Matrix.diagonal, Matrix.one_apply] <;>
        norm_num
    rw [hS, Matrix.posDef_diagonal_iff]
    intro i
    fin_cases i <;> norm_num
  exact ⟨hpd,
    (gating_distance_mahalanobis { initFilter with measurement_noise := 1 } 0 0
        (fun _ : Fin 1 => 0) hpd).2.1 0⟩

/-! ### Claim C6 -/

/-- C6: `update` and `gating_distance` raise exactly when the covariance
handed to the Cholesky factorization is not positive definite, and the
error of that single call is not recovered internally; in `update` the
failure point lies after the internal `project` call has already
advanced the measurement noise, so a failing `update` leaves the process
noise and stored residual unchanged while the measurement noise has been
replaced by the projection recursion — and, as the final existential
shows on a concrete input, genuinely changed. -/
theorem update_gating_failure_semantics :
    (∀ (s : KFState) (m : Vec8) (P : Mat8) (z : Vec4) (c : ℝ),
      (UpdateRun s m P z c (Outcome.err (project s m P c).2.2) ↔
        ¬ (project s m P c).2.1.PosDef) ∧
      ((∃ r s', UpdateRun s m P z c (Outcome.ok r s')) ↔
        (project s m P c).2.1.PosDef) ∧
      (∀ s', UpdateRun s m P z c (Outcome.err s') →
        s' = (project s m P c).2.2 ∧
        s'.process_noise = s.process_noise ∧
        s'.residual = s.residual ∧
        s'.measurement_noise = (project s m P c).2.2.measurement_noise)) ∧
    (∀ (s : KFState) (m : Vec8) (P : Mat8) (N : ℕ) (meas : Fin N → Vec4) (op : Bool),
      (GatingRun s m P meas op (Outcome.err (project s m P 0).2.2) ↔
        ¬ gatingCholOk s m P op) ∧
      ((∃ r s', GatingRun s m P meas op (Outcome.ok r s')) ↔
        gatingCholOk s m P op) ∧
      (∀ s', GatingRun s m P meas op (Outcome.err s') →
        s'.process_noise = s.process_noise ∧ s'.residual = s.residual)) ∧
    (∃ s' : KFState,
      UpdateRun initFilter 0 0 0 0 (Outcome.err s') ∧
      s'.measurement_noise ≠ initFilter.measurement_noise) := by
  refine ⟨?_, ?_, ?_⟩
  · intro s m P z c
    refine ⟨⟨?_, UpdateRun.err⟩, ⟨?_, fun hpd => ⟨_, _, UpdateRun.ok hpd⟩⟩, ?_⟩
    · intro hrun
      cases hrun with
      | err hnd => exact hnd
    · rintro ⟨r, s', hrun⟩
      cases hrun with
      | ok hpd => exact hpd
    · intro s' hrun
      cases hrun with
      | err hnd => exact ⟨rfl, rfl, rfl, rfl⟩
  · intro s m P N meas op
    refine ⟨⟨?_, GatingRun.err⟩, ⟨?_, fun hok => ⟨_, _, GatingRun.ok hok⟩⟩, ?_⟩
    · intro hrun
      cases hrun with
      | err hnd => exact hnd
    · rintro ⟨r, s', hrun⟩
      cases hrun with
      | ok hok => exact hok
    · intro s' hrun
      cases hrun with
      | err hnd => exact ⟨rfl, rfl⟩
  · have hS : (project initFilter 0 0 0).2.1 = Matrix.diagonal ![0, 0, 9 / 1000, 0] := by
      simp only [project, initFilter]
      ext i j
      fin_cases i <;> fin_cases j <;>
        simp [update_mat, forgetting_factor, Matrix.vecMulVec_apply,
          Matrix.diagonal, Matrix.one_apply] <;>
        norm_num
    have hnd : ¬ (project initFilter 0 0 0).2.1.PosDef := by
      rw [hS, Matrix.posDef_diagonal_iff]
      intro hcon
      have h0 := hcon 0
      simp at h0
    have hRval : (project initFilter 0 0 0).2.2.measurement_noise 2 2 = 9 / 1000 := by
      simp only [project, initFilter]
      simp [update_mat, forgetting_factor, Matrix.vecMulVec_apply, Matrix.diagonal,
        Matrix.one_apply, Matrix.add_apply, Matrix.smul_apply]
      norm_num
    refine ⟨(project initFilter 0 0 0).2.2, UpdateRun.err hnd, ?_⟩
    intro heq
    have h := congrFun (congrFun heq 2) 2
    rw [hRval] at h
    have hc : (9 : ℝ) / 1000 = 0 := by simpa [initFilter] using h
    norm_num at hc

/-- Witness for C6: a concrete failing `update` run obtained through the
failure-semantics theorem. -/
theorem update_gating_failure_semantics_witness :
    UpdateRun initFilter 0 0 0 0 (Outcome.err (project initFilter 0 0 0).2.2) := by
  have hS : (project initFilter 0 0 0).2.1 = Matrix.diagonal ![0, 0, 9 / 1000, 0] := by
    simp only [project, initFilter]
    ext i j
    fin_cases i <;> fin_cases j <;>
      simp [update_mat, forgetting_factor, Matrix.vecMulVec_apply,
        Matrix.diagonal, Matrix.one_apply] <;>
      norm_num
  have hnd : ¬ (project initFilter 0 0 0).2.1.PosDef := by
    rw [hS, Matrix.posDef_diagonal_iff]
    intro hcon
    have h0 := hcon 0
    simp at h0
  exact ((update_gating_failure_semantics.1 initFilter 0 0 0 0).1).mpr hnd

/-! ### Claim C7 -/

/-- C7: `initiate [x, y, a, h]` returns the mean `[x, y, a, h, 0, 0, 0, 0]`
and the diagonal covariance whose entries are the squares of
`[2·k_pos·dist, 2·k_pos·dist, a, 2·k_pos·h, 10·k_vel·dist, 10·k_vel·dist,
0.1·a, 10·k_vel·h]`, with `k_pos = 1/20`, `k_vel = 1/160` and `dist` the
Euclidean distance from `(x, y)` to the image center; in particular with
image size 1920×1080 the measurement `[100, 100, 0.5, 50]` receives
positional standard deviation `2 · (1/20) · √((960−100)² + (540−100)²)`. -/
theorem initiate_mean_covariance (s : KFState) (z : Vec4) :
    (initiate s z).1 = ![z 0, z 1, z 2, z 3, 0, 0, 0, 0] ∧
    (initiate s z).2 = (Matrix.diagonal fun i =>
      (![2 * (1 / 20) *
           Real.sqrt ((s.image_width / 2 - z 0) ^ 2 + (s.image_height / 2 - z 1) ^ 2),
         2 * (1 / 20) *
           Real.sqrt ((s.image_width / 2 - z 0) ^ 2 + (s.image_height / 2 - z 1) ^ 2),
         z 2,
         2 * (1 / 20) * z 3,
         10 * (1 / 160) *
           Real.sqrt ((s.image_width / 2 - z 0) ^ 2 + (s.image_height / 2 - z 1) ^ 2),
         10 * (1 / 160) *
           Real.sqrt ((s.image_width / 2 - z 0) ^ 2 + (s.image_height / 2 - z 1) ^ 2),
         0.1 * z 2,
         10 * (1 / 160) * z 3] i) ^ 2) ∧
    (initiate { initFilter with image_width := 1920, image_height := 1080 }
        ![100, 100, 0.5, 50]).2 0 0 =
      (2 * (1 / 20) * Real.sqrt (((960 : ℝ) - 100) ^ 2 + ((540 : ℝ) - 100) ^ 2)) ^ 2 := by
  refine ⟨?_, ?_, ?_⟩
  · funext i
    fin_cases i <;> first | rfl | (simp [initiate, appendVec])
  · show Matrix.diagonal _ = Matrix.diagonal _
    refine Matrix.diagonal_eq_diagonal_iff.mpr fun i => ?_
    fin_cases i <;> first | rfl | (show (1 * z 2) ^ 2 = z 2 ^ 2; ring)
  · have harg : ((1920 : ℝ) / 2 - 100) ^ 2 + ((1080 : ℝ) / 2 - 100) ^ 2 =
        ((960 : ℝ) - 100) ^ 2 + ((540 : ℝ) - 100) ^ 2 := by norm_num
    show (2 * std_weight_position *
        Real.sqrt (((1920 : ℝ) / 2 - 100) ^ 2 + ((1080 : ℝ) / 2 - 100) ^ 2)) ^ 2 = _
    rw [harg]
    norm_num [std_weight_position]

/-! ### Claim C8 -/

/-- C8: `predict` returns `(F·m, F·P·Fᵀ + Q)` with `F` the fixed
constant-velocity transition matrix — each position component is
incremented by its matching velocity (dt = 1), velocities are
unchanged — and `Q` the instance's current process noise; `predict`
modifies no instance state. -/
theorem predict_constant_velocity (s : KFState) (m : Vec8) (P : Mat8) :
    (predict s m P).1 = motion_mat *ᵥ m ∧
    (predict s m P).2.1 = motion_mat * P * motion_matᵀ + s.process_noise ∧
    (∀ i : Fin 8, (predict s m P).1 i =
      if h : (i : ℕ) < 4 then m i + m ⟨(i : ℕ) + 4, by omega⟩ else m i) ∧
    (predict s m P).2.2 = s := by
  refine ⟨rfl, rfl, ?_, rfl⟩
  intro i
  fin_cases i <;>
    simp [predict, motion_mat, Matrix.mulVec, Matrix.dotProduct, Fin.sum_univ_eight,
      show ((3 : Fin 8) : ℕ) = 3 from by decide, show ((4 : Fin 8) : ℕ) = 4 from by decide,
      show ((5 : Fin 8) : ℕ) = 5 from by decide, show ((6 : Fin 8) : ℕ) = 6 from by decide,
      show ((7 : Fin 8) : ℕ) = 7 from by decide]

/-! ### Claim C9 -/

/-- C9: `gating_distance` invokes `project` with confidence 0, so its
state effect is exactly the projection's: the measurement noise advances
by the adaptive recursion (with scaling factor `1 − 0`), the process
noise and stored residual are untouched, and `n` repeated gating calls
on the same state apply the `R` recursion `n` times. -/
theorem gating_mutates_measurement_noise (s : KFState) (m : Vec8) (P : Mat8)
    {N : ℕ} (meas : Fin N → Vec4) (op : Bool) :
    (gating_distance s m P meas op).2 = (project s m P 0).2.2 ∧
    (gating_distance s m P meas op).2.measurement_noise =
      (0.9 : ℝ) • (s.measurement_noise +
        Matrix.diagonal fun i =>
          ((1 - 0) * (![(1 / 20) * m 3, (1 / 20) * m 3, 0.1, (1 / 20) * m 3] i)) ^ 2) +
      (0.1 : ℝ) • (Matrix.vecMulVec s.residual s.residual +
        update_mat * P * update_matᵀ) ∧
    (gating_distance s m P meas op).2.process_noise = s.process_noise ∧
    (gating_distance s m P meas op).2.residual = s.residual ∧
    (∀ n : ℕ, (fun st => (gating_distance st m P meas op).2)^[n] s =
      (fun st => (project st m P 0).2.2)^[n] s) := by
  have ha : (gating_distance s m P meas op).2 = (project s m P 0).2.2 := by
    cases op <;> rfl
  refine ⟨ha, ?_, ?_, ?_, ?_⟩
  · rw [ha]
    simp only [project]
    norm_num [forgetting_factor, std_weight_position]
  · rw [ha]
    rfl
  · rw [ha]
    rfl
  · intro n
    induction n with
    | zero => rfl
    | succ k ih =>
        simp only [Function.iterate_succ_apply', ih]
        cases op <;> rfl

/-! ### Claim C10 -/

/-- C10: a freshly constructed filter has zero process noise, zero
measurement noise, zero stored residual and zero image extent; hence
every `predict` before the first `update` returns covariance exactly
`F·P·Fᵀ` (no process-noise inflation) and `distance_to_image_center`
measures Euclidean distance from the origin. -/
theorem fresh_filter_state :
    initFilter.process_noise = 0 ∧
    initFilter.measurement_noise = 0 ∧
    initFilter.residual = 0 ∧
    initFilter.image_width = 0 ∧
    initFilter.image_height = 0 ∧
    (∀ (m : Vec8) (P : Mat8),
      (predict initFilter m P).2.1 = motion_mat * P * motion_matᵀ ∧
      (predict initFilter m P).2.2 = initFilter) ∧
    (∀ {n : ℕ} (bbox : Fin (n + 2) → ℝ),
      distance_to_image_center initFilter bbox =
        Real.sqrt (bbox 0 ^ 2 + bbox 1 ^ 2)) := by
  refine ⟨rfl, rfl, rfl, rfl, rfl, fun m P => ⟨?_, rfl⟩, fun bbox => ?_⟩
  · show motion_mat * P * motion_matᵀ + initFilter.process_noise = _
    rw [show initFilter.process_noise = 0 from rfl, add_zero]
  · show Real.sqrt (((0 : ℝ) / 2 - bbox 0) ^ 2 + ((0 : ℝ) / 2 - bbox 1) ^ 2) = _
    norm_num [neg_sq]

end AdaptiveKF
